import Mathlib

/-!
# magic_switch: a multi-dimensional jump table

A shallow embedding of `magic_switch.hpp` and a verification of its
dispatch contract.

Modelling conventions.
* An enumeration type `Enum` is described by the ordinal of its `END`
  enumerator and by its underlying integer type (width and signedness).
  Values of the enumeration are mathematical integers inside the range of
  the underlying type.
* `size_t` is a 64 bit unsigned word; conversions to it reduce modulo `2^64`.
* A function pointer produced by `f` for `value_list<I...>` is the datum
  `Jump.fn [I...]`; two pointers are equal exactly when they were generated
  for the same value list.
* `std::array` is a list of cells; `jump[idx]` outside the array is undefined
  behaviour in the source and `none` here.
* A parameter pack is a list of `Arg`: selector values (which carry their
  enumeration type) and other values.
-/

namespace MagicSwitch

/-! ## Enumeration types and machine integers -/

/-- An enumeration type: the ordinal of its `END` enumerator and its
underlying integer type. -/
structure EnumTy where
  /-- the ordinal of the enumerator `Enum::END` -/
  END : Nat
  /-- width of the underlying integer type -/
  bits : Nat
  /-- signedness of the underlying integer type -/
  signed : Bool
deriving DecidableEq, Repr

/-- Smallest value of the underlying type. -/
def EnumTy.minVal (E : EnumTy) : Int :=
  if E.signed then -(2 ^ (E.bits - 1)) else 0

/-- Largest value of the underlying type. -/
def EnumTy.maxVal (E : EnumTy) : Int :=
  if E.signed then 2 ^ (E.bits - 1) - 1 else 2 ^ E.bits - 1

/-- The integer `v` is a value of the enumeration type `E`. -/
def EnumTy.holds (E : EnumTy) (v : Int) : Prop :=
  E.minVal ≤ v ∧ v ≤ E.maxVal

instance (E : EnumTy) (v : Int) : Decidable (E.holds v) := by
  unfold EnumTy.holds; exact inferInstance

/-- The enumeration type is one the source can be instantiated with: the
underlying type has between 1 and 64 bits and `END` is one of its values. -/
def EnumTy.valid (E : EnumTy) : Prop :=
  1 ≤ E.bits ∧ E.bits ≤ 64 ∧ (E.END : Int) ≤ E.maxVal

instance (E : EnumTy) : Decidable E.valid := by
  unfold EnumTy.valid; exact inferInstance

/-- The conversion `Enum(n)` of an integer to the enumeration type: reduction
modulo `2 ^ bits` into the range of the underlying type, two's complement for
a signed one. -/
def EnumTy.cast (E : EnumTy) (n : Int) : Int :=
  if E.signed then (n + 2 ^ (E.bits - 1)) % 2 ^ E.bits - 2 ^ (E.bits - 1)
  else n % 2 ^ E.bits

/-- The conversion `size_t(n)`: reduction modulo `2 ^ 64`. -/
def size_t (n : Int) : Nat := (n % 2 ^ 64).toNat

/-! ## Parameter packs -/

/-- The type of one call argument. -/
inductive ArgTy where
  | enumT (E : EnumTy)
  | valT
deriving DecidableEq, Repr

/-- One element of a parameter pack. -/
inductive Arg (α : Type) where
  /-- a value `val` of the enumeration type `E` -/
  | enum (E : EnumTy) (val : Int)
  /-- any other value -/
  | val (a : α)
deriving DecidableEq, Repr

/-- The static type of an argument. -/
def Arg.ty {α : Type} : Arg α → ArgTy
  | .enum E _ => .enumT E
  | .val _ => .valT

/-! ## The nested array and its type -/

/-- The type computed by `arr_type_helper`: `F<Args...>` or a `std::array`
of a nested type. -/
inductive ArrType where
  /-- the function pointer type `F<Args...>` -/
  | fn
  /-- the array type `std::array<T, N>` -/
  | array (T : ArrType) (N : Nat)
deriving DecidableEq, Repr

/-- A value of a nested array type: a function pointer generated for a value
list, or an array of cells. -/
inductive Jump where
  /-- the pointer returned by `f` for `value_list<I...>` -/
  | fn (I : List Nat)
  /-- a `std::array` holding the listed cells -/
  | array (cells : List Jump)
deriving Repr

/-- The cell `jump[j_0][j_1]...` at an index path. -/
def Jump.at? : Jump → List Nat → Option Jump
  | jump, [] => some jump
  | .array cells, j :: js =>
    match cells[j]? with
    | some cell => cell.at? js
    | none => none
  | .fn _, _ :: _ => none

/-- The value `jump` has the nested array type `T`: an array has exactly the
declared number of cells and every cell has the element type. -/
def Jump.hasType : ArrType → Jump → Bool
  | .fn, .fn _ => true
  | .array T N, .array cells => cells.length == N && cells.all (Jump.hasType T)
  | _, _ => false

mutual
/-- The number of function pointers stored in a nested array. -/
def Jump.leaves : Jump → Nat
  | .fn _ => 1
  | .array cells => Jump.leavesList cells
/-- The number of function pointers stored in a list of cells. -/
def Jump.leavesList : List Jump → Nat
  | [] => 0
  | cell :: cells => cell.leaves + Jump.leavesList cells
end

/-- The nesting depth of an array type. -/
def ArrType.depth : ArrType → Nat
  | .fn => 0
  | .array T _ => T.depth + 1

/-- The array widths of a nested array type, outermost first. -/
def ArrType.widths : ArrType → List Nat
  | .fn => []
  | .array T N => N :: T.widths

/-- The instantiation `magic_switch<Z, Enums...>`: the behaviour family `Z`,
indexed by a list of enumeration values and applied to a pack of arguments,
and the list of enumeration types. -/
structure magic_switch (α R : Type) where
  /-- the behaviour family: `Z vals args` is `Z<vals...>{}(args...)` -/
  Z : List Int → List (Arg α) → R
  /-- the pack `Enums...` -/
  Enums : List EnumTy

namespace magic_switch

variable {α R : Type}

/-- The body of the lambda generated by `f` for `value_list<I...>`:
`Z<Enums(I)...>{}(args...)`. -/
def invoke (ms : magic_switch α R) (I : List Nat) (args : List (Arg α)) : R :=
  ms.Z (List.zipWith (fun E i => E.cast (i : Int)) ms.Enums I) args

/-- The member `f`: the function pointer for the value list `I...`. -/
def f (_ms : magic_switch α R) (I : List Nat) : Jump := .fn I

/-- The helper `arr_type_helper<type_list<Enums...>, type_list<Args...>>::type`. -/
def arr_type_helper : List EnumTy → ArrType
  | [] => .fn
  | Enum :: Nums => .array (arr_type_helper Nums) (size_t Enum.END)

/-- The four-parameter overloads of `table`, selected by the remaining
enumeration list: with `Enum, Nums...` remaining it is the middle call, with
nothing remaining it is the final call. `I` is the prefix `I...` and `Is` the
index sequence `Is...`. -/
def tableAux (ms : magic_switch α R) : List EnumTy → List Nat → List Nat → Jump
  | [], I, Is => .array (Is.map fun j => ms.f (I ++ [j]))
  | Enum :: Nums, I, Is =>
      .array (Is.map fun j => tableAux ms Nums (I ++ [j]) (List.range (size_t Enum.END)))

/-- The first `table` call. It needs a first enumeration type; with an empty
list no overload is viable. -/
def table (ms : magic_switch α R) : List EnumTy → Option Jump
  | [] => none
  | Enum :: Nums => some (tableAux ms Nums [] (List.range (size_t Enum.END)))

/-- The first three statements of `indexer`: the index computed for the
selector `val` of type `Enum`. -/
def index (Enum : EnumTy) (val : Int) : Nat :=
  let end_ := Enum.cast (size_t ((size_t Enum.END : Int) - 1))
  let val := if val > end_ then end_ else val
  size_t val

/-- The member `indexer<todo>(jump, val, args...)`, where `pack` is
`val, args...`. The result is `none` where the source has no defined
behaviour: `todo = 0`, a pack that does not start with an enumeration value,
indexing something that is not an array or outside it, calling an array. -/
def indexer (ms : magic_switch α R) : Nat → Jump → List (Arg α) → Option R
  | 0, _, _ => none
  | todo + 1, jump, pack =>
    match pack with
    | .enum Enum val :: args =>
      let idx := index Enum val
      match jump with
      | .array cells =>
        match cells[idx]? with
        | some cell =>
          if todo + 1 ≠ 1 then indexer ms todo cell args
          else
            match cell with
            | .fn I => some (ms.invoke I args)
            | .array _ => none
        | none => none
      | .fn _ => none
    | _ => none

/-- The pack `nums...` of `operator()`: the `i`-th selector has the `i`-th
enumeration type. -/
def nums (Enums : List EnumTy) (vals : List Int) : List (Arg α) :=
  List.zipWith (fun E v => Arg.enum E v) Enums vals

/-! ## The instrumented walk -/

/-- One executed body of `indexer`: the value of `todo`, the index computed
and the cell `jump[idx]` found there. -/
structure Visit where
  /-- the template argument `todo` -/
  todo : Nat
  /-- the parameter `jump` -/
  jump : Jump
  /-- the index `idx` -/
  idx : Nat
  /-- the cell `jump[idx]` -/
  cell : Jump

/-- What a completed walk did: the bodies executed, in order, the value list
of the function pointer that was called and the arguments it was called with. -/
structure Walk (α : Type) where
  /-- the executed bodies, first to last -/
  visits : List Visit
  /-- the value list `I...` of the function pointer called by the last body -/
  fn : List Nat
  /-- the arguments of that call -/
  args : List (Arg α)

/-- The member `indexer` again, recording each executed body instead of
performing the final call. -/
def indexerTrace : Nat → Jump → List (Arg α) → Option (Walk α)
  | 0, _, _ => none
  | todo + 1, jump, pack =>
    match pack with
    | .enum Enum val :: args =>
      let idx := index Enum val
      match jump with
      | .array cells =>
        match cells[idx]? with
        | some cell =>
          if todo + 1 ≠ 1 then
            (indexerTrace todo cell args).map fun w =>
              ⟨⟨todo + 1, jump, idx, cell⟩ :: w.visits, w.fn, w.args⟩
          else
            match cell with
            | .fn I => some ⟨[⟨todo + 1, jump, idx, cell⟩], I, args⟩
            | .array _ => none
        | none => none
      | .fn _ => none
    | _ => none

/-! ## The function-local static and `operator()` -/

/-- The function-local statics `jump` of the instantiations of `operator()`,
one per trailing-argument signature: `none` before the declaration has been
passed for the first time, `some t` afterwards. -/
abbrev Statics := List ArgTy → Option Jump

/-- No instantiation of `operator()` has been called yet. -/
def Statics.init : Statics := fun _ => none

/-- Store the initialised static of one signature. -/
def Statics.set (st : Statics) (sig : List ArgTy) (jump : Jump) : Statics :=
  fun s => if s = sig then some jump else st s

/-- What one call of `operator()` leaves behind. -/
structure Outcome (R : Type) where
  /-- the statics after the call -/
  statics : Statics
  /-- whether this call evaluated the initialiser of its static -/
  built : Bool
  /-- the value returned, `none` where the call is not defined -/
  result : Option R

/-- The member `operator()(nums..., args...)`: `vals` are the selector values,
the `i`-th one of the `i`-th enumeration type. The static `jump` of the
instantiation for the signature of `args` is initialised by `table` when the
declaration is passed for the first time and read otherwise; then `indexer`
walks it. A call with a number of selectors other than `sizeof...(Enums)`, or
with no enumeration at all, is not an instantiation of the source: it has no
result and touches nothing. -/
def operator_call (ms : magic_switch α R) (st : Statics) (vals : List Int)
    (args : List (Arg α)) : Outcome R :=
  if vals.length ≠ ms.Enums.length then ⟨st, false, none⟩
  else
    let sig := args.map Arg.ty
    match st sig with
    | some jump => ⟨st, false, ms.indexer ms.Enums.length jump (nums ms.Enums vals ++ args)⟩
    | none =>
      match ms.table ms.Enums with
      | some jump =>
        ⟨st.set sig jump, true, ms.indexer ms.Enums.length jump (nums ms.Enums vals ++ args)⟩
      | none => ⟨st, false, none⟩

/-- A sequence of `operator()` calls, each given by its selector values and
its trailing arguments; the outcomes are listed in call order. -/
def run (ms : magic_switch α R) : Statics → List (List Int × List (Arg α)) → List (Outcome R)
  | _, [] => []
  | st, (vals, args) :: calls =>
    let o := ms.operator_call st vals args
    o :: run ms o.statics calls

/-! ## Behaviour invocations as an explicit effect -/

/-- The record of the behaviour invocations performed so far, oldest first:
one entry per executed `Z<vals...>{}(args...)`, holding `vals` and `args`. -/
abbrev Log (α : Type) := List (List Int × List (Arg α))

/-- The body of the lambda generated by `f`, with its effect: the call
`Z<Enums(I)...>{}(args...)` is recorded. -/
def invokeLogged (ms : magic_switch α R) (I : List Nat) (args : List (Arg α))
    (log : Log α) : R × Log α :=
  (ms.Z (List.zipWith (fun E i => E.cast (i : Int)) ms.Enums I) args,
    log ++ [(List.zipWith (fun E i => E.cast (i : Int)) ms.Enums I, args)])

/-- The member `f`, with its effect: it returns the pointer to the lambda and
calls nothing. -/
def fLogged (_ms : magic_switch α R) (I : List Nat) (log : Log α) : Jump × Log α :=
  (.fn I, log)

/-- The elements of a braced initialiser list `{g(Is)...}`, evaluated from left
to right, each one on the record left by the one before it. -/
def initLogged (g : Nat → Log α → Jump × Log α) : List Nat → Log α → List Jump × Log α
  | [], log => ([], log)
  | j :: js, log =>
    let c := g j log
    let cs := initLogged g js c.2
    (c.1 :: cs.1, cs.2)

/-- The four-parameter overloads of `table`, with their effect. -/
def tableAuxLogged (ms : magic_switch α R) :
    List EnumTy → List Nat → List Nat → Log α → Jump × Log α
  | [], I, Is, log =>
    let cells := initLogged (fun j l => ms.fLogged (I ++ [j]) l) Is log
    (.array cells.1, cells.2)
  | Enum :: Nums, I, Is, log =>
    let cells := initLogged
      (fun j l => tableAuxLogged ms Nums (I ++ [j]) (List.range (size_t Enum.END)) l) Is log
    (.array cells.1, cells.2)

/-- The first `table` call, with its effect. -/
def tableLogged (ms : magic_switch α R) : List EnumTy → Log α → Option Jump × Log α
  | [], log => (none, log)
  | Enum :: Nums, log =>
    let t := tableAuxLogged ms Nums [] (List.range (size_t Enum.END)) log
    (some t.1, t.2)

/-- The member `indexer`, with its effect. -/
def indexerLogged (ms : magic_switch α R) :
    Nat → Jump → List (Arg α) → Log α → Option R × Log α
  | 0, _, _, log => (none, log)
  | todo + 1, jump, pack, log =>
    match pack with
    | .enum Enum val :: args =>
      let idx := index Enum val
      match jump with
      | .array cells =>
        match cells[idx]? with
        | some cell =>
          if todo + 1 ≠ 1 then indexerLogged ms todo cell args log
          else
            match cell with
            | .fn I =>
              let r := ms.invokeLogged I args log
              (some r.1, r.2)
            | .array _ => (none, log)
        | none => (none, log)
      | .fn _ => (none, log)
    | _ => (none, log)

/-- The member `operator()`, with its effect: the initialiser of the static,
when it is evaluated, runs before the walk and on the same record. -/
def operator_callLogged (ms : magic_switch α R) (st : Statics) (vals : List Int)
    (args : List (Arg α)) (log : Log α) : Outcome R × Log α :=
  if vals.length ≠ ms.Enums.length then (⟨st, false, none⟩, log)
  else
    let sig := args.map Arg.ty
    match st sig with
    | some jump =>
      let r := ms.indexerLogged ms.Enums.length jump (nums ms.Enums vals ++ args) log
      (⟨st, false, r.1⟩, r.2)
    | none =>
      let t := ms.tableLogged ms.Enums log
      match t.1 with
      | some jump =>
        let r := ms.indexerLogged ms.Enums.length jump (nums ms.Enums vals ++ args) t.2
        (⟨st.set sig jump, true, r.1⟩, r.2)
      | none => (⟨st, false, none⟩, t.2)

/-- The stateless reference for `operator()`: rebuild the table from the
enumeration list and walk it for the selectors and arguments of the call. -/
def reference (ms : magic_switch α R) (vals : List Int) (args : List (Arg α)) : Option R :=
  match ms.table ms.Enums with
  | some jump => ms.indexer ms.Enums.length jump (nums ms.Enums vals ++ args)
  | none => none

end magic_switch

/-- The list `n, n-1, .., 1`. -/
def countdown : Nat → List Nat
  | 0 => []
  | n + 1 => (n + 1) :: countdown n

/-- The rule of the specification for one selector: an ordinal at or beyond
the size `s` of its dimension becomes `s - 1`, any other ordinal is kept. -/
def clampSpec (s v : Nat) : Nat := if v ≥ s then s - 1 else v

/-- The combination the specification binds a selector tuple to: each
ordinal clamped by the size of its dimension. -/
def clamped (Enums : List EnumTy) (vs : List Nat) : List Nat :=
  List.zipWith (fun E v => clampSpec E.END v) Enums vs

/-- The enumeration types are ones the source can be instantiated with and
every dimension has at least one value. -/
def WellFormed (Enums : List EnumTy) : Prop :=
  ∀ E ∈ Enums, E.valid ∧ 1 ≤ E.END

/-- The ordinals `vs` are values of the enumeration types `Enums`, one per
type and in the same order. -/
def Typed (Enums : List EnumTy) (vs : List Nat) : Prop :=
  List.Forall₂ (fun E v => E.holds (v : Int)) Enums vs

/-- The ordinals `vs` are inside their dimensions: `0 ≤ v_i < s_i`. -/
def InRange (Enums : List EnumTy) (vs : List Nat) : Prop :=
  List.Forall₂ (fun E v => v < E.END) Enums vs

/-- Every static that has been initialised holds the table built by `table`
for the enumeration list; this holds of the initial statics and is kept by
every call. -/
def Sound {α R : Type} (ms : magic_switch α R) (st : magic_switch.Statics) : Prop :=
  ∀ sig t, st sig = some t → ms.table ms.Enums = some t

/-- The behaviour family of the specification's forwarding scenario: the
instance at combination `c` returns the sum of its two integer arguments plus
a constant derived from `c`. -/
def sumFamily (constant : List Int → Int) : List Int → List (Arg Int) → Int
  | c, [Arg.val a, Arg.val b] => a + b + constant c
  | _, _ => 0

/-! ## The scenarios of the specification -/

/-- An enumeration with two values, then `END`, over a signed 32 bit type. -/
def Enum2 : EnumTy := ⟨2, 32, true⟩

/-- An enumeration with three values, then `END`, over a signed 32 bit type. -/
def Enum3 : EnumTy := ⟨3, 32, true⟩

/-- The behaviour family of the concrete scenario: the instance at a
combination returns that combination. -/
def combination : List Int → List (Arg Int) → List Int := fun c _ => c

/-- The dispatcher over dimensions of sizes 3 and 2. -/
def switch32 : magic_switch Int (List Int) := ⟨combination, [Enum3, Enum2]⟩

/-- The dispatcher over dimensions of sizes 2 and 3. -/
def switch23 : magic_switch Int (List Int) := ⟨combination, [Enum2, Enum3]⟩

/-- Some nested array with two rows of three function pointers. -/
def someJump23 : Jump :=
  .array [.array [.fn [7], .fn [8], .fn [9]], .array [.fn [4], .fn [5], .fn [6]]]

/-- A malformed enumeration: `END` is its first enumerator, so the dimension
has size 0. -/
def Enum0 : EnumTy := ⟨0, 32, true⟩

/-- The dispatcher over dimensions of sizes 2 and 0. -/
def switch20 : magic_switch Int (List Int) := ⟨combination, [Enum2, Enum0]⟩

/-! ## Machine integers -/

theorem size_t_of_lt {n : Int} (h0 : 0 ≤ n) (h : n < 2 ^ 64) : (size_t n : Int) = n := by
  unfold size_t
  rw [Int.emod_eq_of_lt h0 h]
  exact Int.toNat_of_nonneg h0

theorem two_pow_bits (b : Nat) (hb : 1 ≤ b) : (2 : Int) ^ b = 2 * 2 ^ (b - 1) := by
  obtain ⟨c, rfl⟩ : ∃ c, b = c + 1 := ⟨b - 1, by omega⟩
  simp [pow_succ, mul_comm]

theorem two_pow_le (b : Nat) (hb : b ≤ 64) : (2 : Int) ^ b ≤ 2 ^ 64 :=
  pow_le_pow_right₀ (by norm_num) hb

theorem maxVal_lt (E : EnumTy) (hb : 1 ≤ E.bits) (hb64 : E.bits ≤ 64) :
    E.maxVal < 2 ^ 64 := by
  have h1 := two_pow_le E.bits hb64
  have h2 := two_pow_bits E.bits hb
  have h3 : (0 : Int) < 2 ^ (E.bits - 1) := by positivity
  unfold EnumTy.maxVal
  split <;> omega

theorem minVal_le (E : EnumTy) : E.minVal ≤ 0 := by
  unfold EnumTy.minVal
  have h3 : (0 : Int) < 2 ^ (E.bits - 1) := by positivity
  split <;> omega

theorem cast_of_holds (E : EnumTy) (hb : 1 ≤ E.bits) {n : Int} (h : E.holds n) :
    E.cast n = n := by
  have h2 := two_pow_bits E.bits hb
  have h3 : (0 : Int) < 2 ^ (E.bits - 1) := by positivity
  unfold EnumTy.holds EnumTy.minVal EnumTy.maxVal at h
  unfold EnumTy.cast
  cases hs : E.signed <;> simp only [hs, if_true, if_false, Bool.false_eq_true] at h ⊢
  · exact Int.emod_eq_of_lt h.1 (by omega)
  · rw [Int.emod_eq_of_lt (by omega) (by omega)]; omega

/-- The array width `size_t(Enum::END)` of a valid enumeration is `END`. -/
theorem size_t_END (E : EnumTy) (hv : E.valid) : size_t (E.END : Int) = E.END := by
  obtain ⟨hb, hb64, hE⟩ := hv
  have hmax := maxVal_lt E hb hb64
  have := size_t_of_lt (n := (E.END : Int)) (by omega) (by omega)
  omega

namespace magic_switch

variable {α R : Type}

/-- On a non-negative value of a valid enumeration with `END ≥ 1` the index
computed by `indexer` is the smaller of the ordinal and `END - 1`. -/
theorem index_of_nat (E : EnumTy) (hv : E.valid) (h1 : 1 ≤ E.END) (v : Nat)
    (h : E.holds (v : Int)) : index E v = min v (E.END - 1) := by
  obtain ⟨hb, hb64, hE⟩ := hv
  have hmax := maxVal_lt E hb hb64
  have hmin := minVal_le E
  have e1 : (size_t (E.END : Int) : Int) = E.END := size_t_of_lt (by omega) (by omega)
  have e2 : (size_t ((E.END : Int) - 1) : Int) = (E.END : Int) - 1 :=
    size_t_of_lt (by omega) (by omega)
  have e3 : E.cast ((E.END : Int) - 1) = (E.END : Int) - 1 :=
    cast_of_holds E hb ⟨by omega, by omega⟩
  unfold index
  simp only [e1, e2, e3]
  have hv2 := h.2
  split
  · have : (size_t ((E.END : Int) - 1) : Int) = (E.END : Int) - 1 := e2
    omega
  · have : (size_t (v : Int) : Int) = v := size_t_of_lt (by omega) (by omega)
    omega

/-! ## The table -/

theorem tableAux_at (ms : magic_switch α R) :
    ∀ (Nums : List EnumTy) (I : List Nat) (n j : Nat) (js : List Nat), j < n →
      List.Forall₂ (fun E k => k < size_t (E.END : Int)) Nums js →
      (ms.tableAux Nums I (List.range n)).at? (j :: js) = some (ms.f (I ++ j :: js)) := by
  intro Nums
  induction Nums with
  | nil =>
    intro I n j js hj hjs
    cases hjs
    simp [tableAux, Jump.at?, List.getElem?_range hj, f]
  | cons E Nums ih =>
    intro I n j js hj hjs
    cases hjs with
    | cons hk hrest =>
      rename_i k ks
      have := ih (I ++ [j]) (size_t (E.END : Int)) k ks hk hrest
      simp [tableAux, Jump.at?, List.getElem?_range hj, this, f]

theorem tableAux_hasType (ms : magic_switch α R) :
    ∀ (Nums : List EnumTy) (I Is : List Nat),
      (ms.tableAux Nums I Is).hasType (.array (arr_type_helper Nums) Is.length) = true := by
  intro Nums
  induction Nums with
  | nil =>
    intro I Is
    simp [tableAux, Jump.hasType, arr_type_helper, f]
  | cons E Nums ih =>
    intro I Is
    simp only [tableAux, Jump.hasType, arr_type_helper, List.length_map, beq_self_eq_true,
      Bool.true_and, List.all_eq_true, List.mem_map]
    rintro cell ⟨j, -, rfl⟩
    simpa using ih (I ++ [j]) (List.range (size_t (E.END : Int)))


theorem leavesList_const (m : Nat) :
    ∀ cells : List Jump, (∀ c ∈ cells, c.leaves = m) → Jump.leavesList cells = cells.length * m := by
  intro cells
  induction cells with
  | nil => intro _; simp [Jump.leavesList]
  | cons c cs ih =>
    intro h
    have hc := h c (List.mem_cons_self _ _)
    have hcs := ih (fun x hx => h x (List.mem_cons_of_mem _ hx))
    simp only [Jump.leavesList, hc, hcs, List.length_cons]
    ring

theorem tableAux_leaves (ms : magic_switch α R) :
    ∀ (Nums : List EnumTy) (I Is : List Nat),
      (ms.tableAux Nums I Is).leaves
        = Is.length * (Nums.map fun E => size_t (E.END : Int)).prod := by
  intro Nums
  induction Nums with
  | nil =>
    intro I Is
    have := leavesList_const 1 (Is.map fun j => ms.f (I ++ [j]))
      (by intro c hc; simp only [List.mem_map] at hc; obtain ⟨j, -, rfl⟩ := hc; simp [f, Jump.leaves])
    simpa [tableAux, Jump.leaves] using this
  | cons E Nums ih =>
    intro I Is
    have := leavesList_const (size_t (E.END : Int) * (Nums.map fun E => size_t (E.END : Int)).prod)
      (Is.map fun j => ms.tableAux Nums (I ++ [j]) (List.range (size_t (E.END : Int))))
      (by
        intro c hc
        simp only [List.mem_map] at hc
        obtain ⟨j, -, rfl⟩ := hc
        simpa using ih (I ++ [j]) (List.range (size_t (E.END : Int))))
    simpa [tableAux, Jump.leaves] using this

/-! ## The walk -/

theorem hasType_array_inv {T : ArrType} {N : Nat} {jump : Jump}
    (h : jump.hasType (.array T N) = true) :
    ∃ cells, jump = .array cells ∧ cells.length = N ∧ ∀ c ∈ cells, c.hasType T = true := by
  cases jump with
  | fn I => simp [Jump.hasType] at h
  | array cells =>
    simp only [Jump.hasType, Bool.and_eq_true, beq_iff_eq, List.all_eq_true] at h
    exact ⟨cells, rfl, h.1, h.2⟩

theorem hasType_fn_inv {jump : Jump} (h : jump.hasType .fn = true) : ∃ I, jump = .fn I := by
  cases jump with
  | fn I => exact ⟨I, rfl⟩
  | array cells => simp [Jump.hasType] at h

/-- The call performed by `indexer` is the call recorded by the instrumented
walk. -/
theorem indexer_eq_trace (ms : magic_switch α R) :
    ∀ (todo : Nat) (jump : Jump) (pack : List (Arg α)),
      ms.indexer todo jump pack
        = (indexerTrace todo jump pack).map fun w => ms.invoke w.fn w.args := by
  intro todo
  induction todo with
  | zero => intro jump pack; simp [indexer, indexerTrace]
  | succ todo ih =>
    intro jump pack
    cases pack with
    | nil => simp [indexer, indexerTrace]
    | cons a args =>
      cases a with
      | val a => simp [indexer, indexerTrace]
      | enum E v =>
        cases jump with
        | fn I => simp [indexer, indexerTrace]
        | array cells =>
          simp only [indexer, indexerTrace]
          cases hc : cells[index E v]? with
          | none => simp
          | some cell =>
            by_cases ht : todo + 1 ≠ 1
            · dsimp only
              rw [if_pos ht, if_pos ht, ih, Option.map_map]
              rfl
            · dsimp only
              rw [if_neg ht, if_neg ht]
              cases cell <;> simp

theorem indexerTrace_step (todo : Nat) (cells : List Jump) (cell : Jump) (E : EnumTy) (v : Int)
    (args : List (Arg α)) (hget : cells[index E v]? = some cell) (ht : todo + 1 ≠ 1) :
    indexerTrace (todo + 1) (.array cells) (Arg.enum E v :: args)
      = (indexerTrace todo cell args).map fun w =>
          ⟨⟨todo + 1, .array cells, index E v, cell⟩ :: w.visits, w.fn, w.args⟩ := by
  simp only [indexerTrace, hget]
  rw [if_pos ht]

/-- The walk over any nested array of the type computed for `Enum, Nums...`,
with every computed index inside its array: it completes, and the record of
the walk has the shape described in the statement. -/
theorem indexerTrace_spec :
    ∀ (Nums : List EnumTy) (E : EnumTy) (jump : Jump) (v : Int) (vals : List Int)
      (args : List (Arg α)),
      jump.hasType (arr_type_helper (E :: Nums)) = true →
      index E v < size_t (E.END : Int) →
      List.Forall₂ (fun E v => index E v < size_t (E.END : Int)) Nums vals →
      ∃ w : Walk α,
        indexerTrace (Nums.length + 1) jump (Arg.enum E v :: (nums Nums vals ++ args)) = some w ∧
        w.args = args ∧
        jump.at? (index E v :: List.zipWith index Nums vals) = some (.fn w.fn) ∧
        w.visits.map Visit.todo = countdown (Nums.length + 1) ∧
        w.visits.map Visit.idx = index E v :: List.zipWith index Nums vals ∧
        (w.visits.head?.map Visit.jump = some jump) ∧
        List.Chain' (fun a b => b.jump = a.cell) w.visits ∧
        (∀ x ∈ w.visits, ∃ cells, x.jump = .array cells ∧ cells[x.idx]? = some x.cell) ∧
        (∀ x ∈ w.visits, x.todo ≠ 1 → ∃ cells, x.cell = .array cells) ∧
        (∀ x ∈ w.visits, x.todo = 1 → x.cell = .fn w.fn) := by
  intro Nums
  induction Nums with
  | nil =>
    intro E jump v vals args hT hidx hvals
    cases hvals
    obtain ⟨cells, rfl, hlen, hcells⟩ := hasType_array_inv hT
    have hlt : index E v < cells.length := by omega
    have hget : cells[index E v]? = some cells[index E v] := List.getElem?_eq_getElem hlt
    obtain ⟨I, hI⟩ := hasType_fn_inv (hcells _ (List.getElem_mem hlt))
    refine ⟨⟨[⟨1, .array cells, index E v, .fn I⟩], I, args⟩, ?_, rfl, ?_, ?_, ?_, ?_, ?_, ?_, ?_, ?_⟩
    · simp [indexerTrace, nums, hget, hI]
    · simp [Jump.at?, hget, hI]
    · simp [countdown]
    · simp
    · simp
    · simp
    · intro x hx
      simp only [List.mem_singleton] at hx
      subst hx
      exact ⟨cells, rfl, by simp [hget, hI]⟩
    · intro x hx h1
      simp only [List.mem_singleton] at hx
      subst hx
      exact absurd rfl h1
    · intro x hx _
      simp only [List.mem_singleton] at hx
      subst hx
      rfl
  | cons E2 Nums ih =>
    intro E jump v vals args hT hidx hvals
    cases hvals with
    | cons hv2 hrest =>
      rename_i v2 vals2
      obtain ⟨cells, rfl, hlen, hcells⟩ := hasType_array_inv hT
      have hlt : index E v < cells.length := by omega
      have hget : cells[index E v]? = some cells[index E v] := List.getElem?_eq_getElem hlt
      have hcT := hcells _ (List.getElem_mem hlt)
      obtain ⟨w, hw, hargs, hat, htodo, hidxs, hhead, hchain, hjumps, hmid, hlast⟩ :=
        ih E2 cells[index E v] v2 vals2 args hcT hv2 hrest
      obtain ⟨cells2, hcell2, -, -⟩ := hasType_array_inv hcT
      have hne : Nums.length + 1 + 1 ≠ 1 := by omega
      refine ⟨⟨⟨Nums.length + 2, .array cells, index E v, cells[index E v]⟩ :: w.visits,
        w.fn, w.args⟩, ?_, hargs, ?_, ?_, ?_, ?_, ?_, ?_, ?_, ?_⟩
      · simp only [List.length_cons, nums, List.zipWith_cons_cons, List.cons_append]
        rw [indexerTrace_step _ _ _ _ _ _ hget hne]
        simp only [nums] at hw
        rw [hw]
        rfl
      · simp [Jump.at?, hget, hat]
      · simp [countdown, htodo]
      · simp [hidxs]
      · simp
      · rw [List.chain'_cons']
        refine ⟨?_, hchain⟩
        intro y hy
        rw [Option.mem_def] at hy
        rw [hy] at hhead
        simpa using hhead
      · intro x hx
        rcases List.mem_cons.mp hx with rfl | hx
        · exact ⟨cells, rfl, hget⟩
        · exact hjumps x hx
      · intro x hx h1
        rcases List.mem_cons.mp hx with rfl | hx
        · exact ⟨cells2, hcell2⟩
        · exact hmid x hx h1
      · intro x hx h1
        rcases List.mem_cons.mp hx with rfl | hx
        · simp at h1
        · exact hlast x hx h1

/-! ## Selectors of well-formed enumerations -/

theorem clampSpec_eq_min (s v : Nat) (hs : 1 ≤ s) : clampSpec s v = min v (s - 1) := by
  unfold clampSpec
  split <;> omega

theorem clampSpec_lt (s v : Nat) (hs : 1 ≤ s) : clampSpec s v < s := by
  unfold clampSpec
  split <;> omega

theorem zipWith_index (Enums : List EnumTy) (vs : List Nat) (hwf : WellFormed Enums)
    (hvs : Typed Enums vs) :
    List.zipWith index Enums (vs.map (Nat.cast : Nat → Int)) = clamped Enums vs := by
  unfold Typed at hvs
  induction hvs with
  | nil => rfl
  | @cons E v Es vs' h _ ih =>
    have hE := hwf E (List.mem_cons_self _ _)
    have hrest : WellFormed Es := fun x hx => hwf x (List.mem_cons_of_mem _ hx)
    simp only [List.map_cons, List.zipWith_cons_cons, clamped]
    rw [index_of_nat E hE.1 hE.2 v h, clampSpec_eq_min _ _ hE.2]
    congr 1
    exact ih hrest

theorem forall₂_index (Enums : List EnumTy) (vs : List Nat) (hwf : WellFormed Enums)
    (hvs : Typed Enums vs) :
    List.Forall₂ (fun E v => index E v < size_t (E.END : Int)) Enums
      (vs.map (Nat.cast : Nat → Int)) := by
  unfold Typed at hvs
  induction hvs with
  | nil => exact List.Forall₂.nil
  | @cons E v Es vs' h _ ih =>
    have hE := hwf E (List.mem_cons_self _ _)
    have hrest : WellFormed Es := fun x hx => hwf x (List.mem_cons_of_mem _ hx)
    refine List.Forall₂.cons ?_ (ih hrest)
    rw [index_of_nat E hE.1 hE.2 v h, size_t_END E hE.1]
    omega

theorem forall₂_clamped (Enums : List EnumTy) (vs : List Nat) (hwf : WellFormed Enums)
    (hvs : Typed Enums vs) :
    List.Forall₂ (fun E k => k < size_t (E.END : Int)) Enums (clamped Enums vs) := by
  unfold Typed at hvs
  induction hvs with
  | nil => exact List.Forall₂.nil
  | @cons E v Es vs' h _ ih =>
    have hE := hwf E (List.mem_cons_self _ _)
    have hrest : WellFormed Es := fun x hx => hwf x (List.mem_cons_of_mem _ hx)
    refine List.Forall₂.cons ?_ (ih hrest)
    rw [size_t_END E hE.1]
    exact clampSpec_lt _ _ hE.2

theorem zipWith_cast (Enums : List EnumTy) (vs : List Nat) (hwf : WellFormed Enums)
    (hvs : Typed Enums vs) :
    List.zipWith (fun E i => E.cast ((i : Nat) : Int)) Enums (clamped Enums vs)
      = (clamped Enums vs).map (Nat.cast : Nat → Int) := by
  unfold Typed at hvs
  induction hvs with
  | nil => rfl
  | @cons E v Es vs' h _ ih =>
    have hE := hwf E (List.mem_cons_self _ _)
    have hrest : WellFormed Es := fun x hx => hwf x (List.mem_cons_of_mem _ hx)
    simp only [clamped, List.zipWith_cons_cons, List.map_cons]
    have hlt := clampSpec_lt E.END v hE.2
    have hmin := minVal_le E
    have hmax := hE.1.2.2
    rw [cast_of_holds E hE.1.1 ⟨by omega, by omega⟩]
    congr 1
    exact ih hrest

theorem clamped_of_inRange (Enums : List EnumTy) (vs : List Nat) (h : InRange Enums vs) :
    clamped Enums vs = vs := by
  unfold InRange at h
  induction h with
  | nil => rfl
  | cons h _ ih =>
    simp only [clamped, List.zipWith_cons_cons, clampSpec] at ih ⊢
    rw [if_neg (by omega), ih]

theorem typed_of_inRange (Enums : List EnumTy) (vs : List Nat) (hwf : WellFormed Enums)
    (h : InRange Enums vs) : Typed Enums vs := by
  unfold InRange at h
  unfold Typed
  induction h with
  | nil => exact List.Forall₂.nil
  | @cons E v Es vs' h _ ih =>
    have hE := hwf E (List.mem_cons_self _ _)
    have hrest : WellFormed Es := fun x hx => hwf x (List.mem_cons_of_mem _ hx)
    have hmin := minVal_le E
    have hmax := hE.1.2.2
    exact List.Forall₂.cons ⟨by omega, by omega⟩ (ih hrest)

/-! ## The walk over the built table -/

/-- The walk over the built table, for selectors that are values of
well-formed enumerations: the table exists, the walk completes and calls the
pointer generated for the clamped ordinals with the trailing arguments. -/
theorem walk_table (ms : magic_switch α R) (hK : ms.Enums ≠ []) (hwf : WellFormed ms.Enums)
    (vs : List Nat) (hvs : Typed ms.Enums vs) (args : List (Arg α)) :
    ∃ (t : Jump) (w : Walk α), ms.table ms.Enums = some t ∧
      indexerTrace ms.Enums.length t (nums ms.Enums (vs.map (Nat.cast : Nat → Int)) ++ args) = some w ∧
      w.fn = clamped ms.Enums vs ∧ w.args = args := by
  have hidx := forall₂_index ms.Enums vs hwf hvs
  have hcl := forall₂_clamped ms.Enums vs hwf hvs
  have hzip := zipWith_index ms.Enums vs hwf hvs
  revert hidx hcl hzip
  cases hE : ms.Enums with
  | nil => exact absurd hE hK
  | cons E Nums =>
    intro hidx hcl hzip
    cases hm : vs.map (Nat.cast : Nat → Int) with
    | nil => rw [hm] at hidx; cases hidx
    | cons v vals =>
      rw [hm] at hidx hzip
      cases hc : clamped (E :: Nums) vs with
      | nil => rw [hc] at hcl; cases hcl
      | cons c cs =>
        rw [hc] at hcl hzip
        cases hidx with
        | cons hv hvals =>
          cases hcl with
          | cons hc1 hcs =>
            simp only [List.zipWith_cons_cons, List.cons.injEq] at hzip
            have hT : (ms.tableAux Nums [] (List.range (size_t (E.END : Int)))).hasType
                (arr_type_helper (E :: Nums)) = true := by
              simpa [arr_type_helper] using
                tableAux_hasType ms Nums [] (List.range (size_t (E.END : Int)))
            obtain ⟨w, hw, hargs, hat, -⟩ :=
              indexerTrace_spec Nums E _ v vals args hT hv hvals
            have hat2 := tableAux_at ms Nums [] (size_t (E.END : Int)) c cs hc1 hcs
            rw [hzip.1, hzip.2, hat2] at hat
            simp only [f, List.nil_append, Option.some.injEq, Jump.fn.injEq] at hat
            refine ⟨_, w, rfl, ?_, hat.symm, hargs⟩
            simpa [nums] using hw

/-- The value returned by `operator()` for selectors that are values of
well-formed enumerations, from any sound statics. -/
theorem operator_call_result (ms : magic_switch α R) (hK : ms.Enums ≠ [])
    (hwf : WellFormed ms.Enums) (vs : List Nat) (hvs : Typed ms.Enums vs)
    (st : Statics) (hst : Sound ms st) (args : List (Arg α)) :
    (ms.operator_call st (vs.map (Nat.cast : Nat → Int)) args).result
      = some (ms.Z ((clamped ms.Enums vs).map (Nat.cast : Nat → Int)) args) := by
  obtain ⟨t, w, ht, hw, hfn, hargs⟩ := walk_table ms hK hwf vs hvs args
  have hlen : (vs.map (Nat.cast : Nat → Int)).length = ms.Enums.length := by
    simpa using (List.Forall₂.length_eq hvs).symm
  have hres : ms.indexer ms.Enums.length t
      (nums ms.Enums (vs.map (Nat.cast : Nat → Int)) ++ args)
      = some (ms.Z ((clamped ms.Enums vs).map (Nat.cast : Nat → Int)) args) := by
    rw [indexer_eq_trace, hw]
    simp only [Option.map_some', invoke, hfn, hargs, zipWith_cast ms.Enums vs hwf hvs]
  unfold operator_call
  rw [if_neg (by simpa using hlen)]
  dsimp only
  split
  · rename_i jump hs
    have := hst _ _ hs
    rw [ht] at this
    cases this
    exact hres
  · split
    · rename_i jump hj
      rw [ht] at hj
      cases hj
      exact hres
    · rename_i hj
      rw [ht] at hj
      cases hj

/-! ## The statics -/

theorem sound_init (ms : magic_switch α R) : Sound ms Statics.init := by
  intro sig t h
  simp [Statics.init] at h

/-- A call keeps the statics sound. -/
theorem sound_operator_call (ms : magic_switch α R) (st : Statics) (hst : Sound ms st)
    (vals : List Int) (args : List (Arg α)) :
    Sound ms (ms.operator_call st vals args).statics := by
  unfold operator_call
  split
  · exact hst
  · dsimp only
    split
    · exact hst
    · split
      · rename_i jump hj
        intro sig t h
        simp only [Statics.set] at h
        split at h
        · cases h; exact hj
        · exact hst sig t h
      · exact hst

/-- A call that finds its static initialised does not evaluate the
initialiser and leaves the statics as they are. -/
theorem operator_call_built (ms : magic_switch α R) (st : Statics) (vals : List Int)
    (args : List (Arg α)) (t : Jump) (h : st (args.map Arg.ty) = some t) :
    (ms.operator_call st vals args).built = false ∧
      (ms.operator_call st vals args).statics = st := by
  unfold operator_call
  split
  · exact ⟨rfl, rfl⟩
  · dsimp only
    rw [h]
    exact ⟨rfl, rfl⟩

/-- Calls of one signature whose static is initialised: none of them
evaluates the initialiser, all of them leave the statics as they are. -/
theorem run_built (ms : magic_switch α R) (sig : List ArgTy) (t : Jump) :
    ∀ (calls : List (List Int × List (Arg α))) (st : Statics), st sig = some t →
      (∀ c ∈ calls, c.2.map Arg.ty = sig) →
      ∀ o ∈ ms.run st calls, o.built = false ∧ o.statics = st := by
  intro calls
  induction calls with
  | nil => intro st _ _ o ho; simp [run] at ho
  | cons c calls ih =>
    intro st hst hsig o ho
    obtain ⟨vals, args⟩ := c
    have hc : args.map Arg.ty = sig := hsig (vals, args) (List.mem_cons_self _ _)
    have hb := operator_call_built ms st vals args t (by rw [hc]; exact hst)
    simp only [run, List.mem_cons] at ho
    rcases ho with rfl | ho
    · exact hb
    · rw [hb.2] at ho
      exact ih st hst (fun x hx => hsig x (List.mem_cons_of_mem _ hx)) o ho

/-! ## Replacing one selector -/

theorem clamped_set (Enums : List EnumTy) (vs : List Nat) (hvs : Typed Enums vs) :
    ∀ (i : Nat) (E : EnumTy) (v : Nat), Enums[i]? = some E → vs[i]? = some v → v ≥ E.END →
      clamped Enums (vs.set i (E.END - 1)) = clamped Enums vs := by
  unfold Typed at hvs
  induction hvs with
  | nil => intro i E v hE; simp at hE
  | @cons E0 v0 Es vs' h _ ih =>
    intro i E v hE hv hge
    cases i with
    | zero =>
      simp only [List.getElem?_cons_zero, Option.some.injEq] at hE hv
      subst hE hv
      simp only [List.set_cons_zero, clamped, List.zipWith_cons_cons, clampSpec]
      congr 1
      split <;> rfl
    | succ i =>
      simp only [List.getElem?_cons_succ] at hE hv
      have := ih i E v hE hv hge
      simp only [clamped] at this
      simp only [List.set_cons_succ, clamped, List.zipWith_cons_cons, this]

theorem typed_set (Enums : List EnumTy) (vs : List Nat) (hwf : WellFormed Enums)
    (hvs : Typed Enums vs) :
    ∀ (i : Nat) (E : EnumTy), Enums[i]? = some E → Typed Enums (vs.set i (E.END - 1)) := by
  unfold Typed at hvs ⊢
  induction hvs with
  | nil => intro i E hE; simp at hE
  | @cons E0 v0 Es vs' h hrest ih =>
    intro i E hE
    have hE0 := hwf E0 (List.mem_cons_self _ _)
    have hwf' : WellFormed Es := fun x hx => hwf x (List.mem_cons_of_mem _ hx)
    cases i with
    | zero =>
      simp only [List.getElem?_cons_zero, Option.some.injEq] at hE
      subst hE
      have hmin := minVal_le E0
      have hmax := hE0.1.2.2
      exact List.Forall₂.cons ⟨by omega, by omega⟩ hrest
    | succ i =>
      simp only [List.getElem?_cons_succ] at hE
      exact List.Forall₂.cons h (ih hwf' i E hE)

/-! ## The type of the table -/

theorem depth_arr_type_helper (Enums : List EnumTy) :
    (arr_type_helper Enums).depth = Enums.length := by
  induction Enums with
  | nil => rfl
  | cons E Nums ih => simp [arr_type_helper, ArrType.depth, ih]

theorem widths_arr_type_helper (Enums : List EnumTy) (hwf : WellFormed Enums) :
    (arr_type_helper Enums).widths = Enums.map EnumTy.END := by
  induction Enums with
  | nil => rfl
  | cons E Nums ih =>
    have hE := hwf E (List.mem_cons_self _ _)
    have hrest : WellFormed Nums := fun x hx => hwf x (List.mem_cons_of_mem _ hx)
    simp [arr_type_helper, ArrType.widths, ih hrest, size_t_END E hE.1]

theorem map_size_t_END (Enums : List EnumTy) (hwf : WellFormed Enums) :
    (Enums.map fun E => size_t (E.END : Int)) = Enums.map EnumTy.END := by
  induction Enums with
  | nil => rfl
  | cons E Nums ih =>
    have hE := hwf E (List.mem_cons_self _ _)
    have hrest : WellFormed Nums := fun x hx => hwf x (List.mem_cons_of_mem _ hx)
    simp [ih hrest, size_t_END E hE.1]

theorem forall₂_of_inRange (Enums : List EnumTy) (js : List Nat) (hwf : WellFormed Enums)
    (h : InRange Enums js) :
    List.Forall₂ (fun E k => k < size_t (E.END : Int)) Enums js := by
  unfold InRange at h
  induction h with
  | nil => exact List.Forall₂.nil
  | @cons E v Es vs' h _ ih =>
    have hE := hwf E (List.mem_cons_self _ _)
    have hrest : WellFormed Es := fun x hx => hwf x (List.mem_cons_of_mem _ hx)
    refine List.Forall₂.cons ?_ (ih hrest)
    rw [size_t_END E hE.1]
    exact h

/-! ## The effect of building and of walking -/

theorem initLogged_pure (g : Nat → Log α → Jump × Log α) (h : Nat → Jump)
    (hg : ∀ j l, g j l = (h j, l)) :
    ∀ (Is : List Nat) (log : Log α), initLogged g Is log = (Is.map h, log) := by
  intro Is
  induction Is with
  | nil => intro log; rfl
  | cons j js ih =>
    intro log
    simp only [initLogged, hg, ih, List.map_cons]

/-- Building with the record threaded through gives the table of `tableAux`
and leaves the record as it was. -/
theorem tableAuxLogged_eq (ms : magic_switch α R) :
    ∀ (Nums : List EnumTy) (I Is : List Nat) (log : Log α),
      ms.tableAuxLogged Nums I Is log = (ms.tableAux Nums I Is, log) := by
  intro Nums
  induction Nums with
  | nil =>
    intro I Is log
    simp only [tableAuxLogged, tableAux]
    rw [initLogged_pure (fun j l => ms.fLogged (I ++ [j]) l) (fun j => ms.f (I ++ [j]))
      (fun j l => rfl)]
  | cons E Nums ih =>
    intro I Is log
    simp only [tableAuxLogged, tableAux]
    rw [initLogged_pure
      (fun j l => ms.tableAuxLogged Nums (I ++ [j]) (List.range (size_t (E.END : Int))) l)
      (fun j => ms.tableAux Nums (I ++ [j]) (List.range (size_t (E.END : Int))))
      (fun j l => ih _ _ l)]

theorem tableLogged_eq (ms : magic_switch α R) (Enums : List EnumTy) (log : Log α) :
    ms.tableLogged Enums log = (ms.table Enums, log) := by
  cases Enums with
  | nil => rfl
  | cons E Nums => simp only [tableLogged, table, tableAuxLogged_eq]

/-- The walk with the record threaded through, in terms of the instrumented
walk: a completed walk adds the one call it ends with, any other walk adds
nothing. -/
theorem indexerLogged_eq_trace (ms : magic_switch α R) :
    ∀ (todo : Nat) (jump : Jump) (pack : List (Arg α)) (log : Log α),
      ms.indexerLogged todo jump pack log
        = match indexerTrace todo jump pack with
          | some w => (some (ms.invoke w.fn w.args),
              log ++ [(List.zipWith (fun E i => E.cast ((i : Nat) : Int)) ms.Enums w.fn, w.args)])
          | none => (none, log) := by
  intro todo
  induction todo with
  | zero => intro jump pack log; simp [indexerLogged, indexerTrace]
  | succ todo ih =>
    intro jump pack log
    cases pack with
    | nil => simp [indexerLogged, indexerTrace]
    | cons a args =>
      cases a with
      | val a => simp [indexerLogged, indexerTrace]
      | enum E v =>
        cases jump with
        | fn I => simp [indexerLogged, indexerTrace]
        | array cells =>
          simp only [indexerLogged, indexerTrace]
          cases hc : cells[index E v]? with
          | none => simp
          | some cell =>
            by_cases ht : todo + 1 ≠ 1
            · dsimp only
              rw [if_pos ht, if_pos ht, ih]
              cases indexerTrace todo cell args <;> rfl
            · dsimp only
              rw [if_neg ht, if_neg ht]
              cases cell <;> rfl

/-- Dropping the record from `operator()` gives `operator()`. -/
theorem operator_callLogged_fst (ms : magic_switch α R) (st : Statics) (vals : List Int)
    (args : List (Arg α)) (log : Log α) :
    (ms.operator_callLogged st vals args log).1 = ms.operator_call st vals args := by
  have hidx : ∀ (jump : Jump) (l : Log α),
      (ms.indexerLogged ms.Enums.length jump (nums ms.Enums vals ++ args) l).1
        = ms.indexer ms.Enums.length jump (nums ms.Enums vals ++ args) := by
    intro jump l
    rw [indexerLogged_eq_trace, indexer_eq_trace]
    cases indexerTrace ms.Enums.length jump (nums ms.Enums vals ++ args) <;> rfl
  unfold operator_callLogged operator_call
  split
  · rfl
  · dsimp only
    cases hs : st (args.map Arg.ty) with
    | some jump => simp only [hidx]
    | none =>
      simp only [tableLogged_eq]
      cases ht : ms.table ms.Enums with
      | none => rfl
      | some jump => simp only [hidx]

/-- The record left by one call of `operator()` for selectors that are values
of well-formed enumerations, from any sound statics: the record before the
call, followed by the call of the instance bound to the clamped ordinals. -/
theorem operator_callLogged_log (ms : magic_switch α R) (hK : ms.Enums ≠ [])
    (hwf : WellFormed ms.Enums) (vs : List Nat) (hvs : Typed ms.Enums vs)
    (st : Statics) (hst : Sound ms st) (args : List (Arg α)) (log : Log α) :
    (ms.operator_callLogged st (vs.map (Nat.cast : Nat → Int)) args log).2
      = log ++ [((clamped ms.Enums vs).map (Nat.cast : Nat → Int), args)] := by
  obtain ⟨t, w, ht, hw, hfn, hargs⟩ := walk_table ms hK hwf vs hvs args
  have hlen : (vs.map (Nat.cast : Nat → Int)).length = ms.Enums.length := by
    simpa using (List.Forall₂.length_eq hvs).symm
  have hres : ∀ l : Log α, (ms.indexerLogged ms.Enums.length t
      (nums ms.Enums (vs.map (Nat.cast : Nat → Int)) ++ args) l).2
      = l ++ [((clamped ms.Enums vs).map (Nat.cast : Nat → Int), args)] := by
    intro l
    rw [indexerLogged_eq_trace, hw]
    simp only [hfn, hargs, zipWith_cast ms.Enums vs hwf hvs]
  unfold operator_callLogged
  rw [if_neg (by simpa using hlen)]
  dsimp only
  cases hs : st (args.map Arg.ty) with
  | some jump =>
    have := hst _ _ hs
    rw [ht] at this
    cases this
    exact hres log
  | none =>
    simp only [tableLogged_eq, ht]
    exact hres log

/-! ## A dimension of size zero -/

/-- Below an in-range index path through the leading dimensions `pre`, the
table holds the sub-table built for the dimensions after the next one. -/
theorem tableAux_at_initial (ms : magic_switch α R) (E0 : EnumTy) (post : List EnumTy) :
    ∀ (pre : List EnumTy) (I : List Nat) (n j : Nat) (js : List Nat), j < n →
      List.Forall₂ (fun E k => k < size_t (E.END : Int)) pre js →
      (ms.tableAux (pre ++ E0 :: post) I (List.range n)).at? (j :: js)
        = some (ms.tableAux post (I ++ j :: js) (List.range (size_t (E0.END : Int)))) := by
  intro pre
  induction pre with
  | nil =>
    intro I n j js hj hjs
    cases hjs
    simp [tableAux, Jump.at?, List.getElem?_range hj]
  | cons E pre ih =>
    intro I n j js hj hjs
    cases hjs with
    | @cons _ k _ ks hk hrest =>
      have := ih (I ++ [j]) (size_t (E.END : Int)) k ks hk hrest
      simp [tableAux, Jump.at?, List.getElem?_range hj, this]

theorem tableAux_nil_seq (ms : magic_switch α R) (Nums : List EnumTy) (I : List Nat) :
    ms.tableAux Nums I [] = .array [] := by
  cases Nums <;> rfl

/-- A nested array of the type computed for an enumeration list with a
dimension of size zero cannot be walked: whatever the pack is, `indexer` finds
an index outside an array. -/
theorem indexer_none_of_zero (ms : magic_switch α R) :
    ∀ (Enums : List EnumTy), (∃ E ∈ Enums, size_t (E.END : Int) = 0) →
      ∀ (jump : Jump), jump.hasType (arr_type_helper Enums) = true →
      ∀ (pack : List (Arg α)), ms.indexer Enums.length jump pack = none := by
  intro Enums
  induction Enums with
  | nil => rintro ⟨E, hE, -⟩; cases hE
  | cons E Nums ih =>
    intro hz jump hT pack
    obtain ⟨cells, rfl, hlen, hcells⟩ := hasType_array_inv hT
    cases pack with
    | nil => simp [indexer]
    | cons a args =>
      cases a with
      | val a => simp [indexer]
      | enum E1 v =>
        simp only [List.length_cons, indexer]
        cases hc : cells[index E1 v]? with
        | none => rfl
        | some cell =>
          have hmem : cell ∈ cells := List.getElem?_mem hc
          have hne : cells ≠ [] := List.ne_nil_of_mem hmem
          have hz2 : ∃ E2 ∈ Nums, size_t (E2.END : Int) = 0 := by
            obtain ⟨E2, hE2, h0⟩ := hz
            rcases List.mem_cons.mp hE2 with rfl | hE2
            · rw [h0] at hlen
              exact absurd (List.length_eq_zero.mp hlen) hne
            · exact ⟨E2, hE2, h0⟩
          have hpos : Nums.length + 1 ≠ 1 := by
            obtain ⟨E2, hE2, -⟩ := hz2
            have := List.length_pos_of_mem hE2
            omega
          dsimp only
          rw [if_pos hpos]
          exact ih hz2 cell (hcells cell hmem) args

/-! ## The statics are transparent -/

/-- From sound statics a call with `sizeof...(Enums)` selectors returns what
the stateless reference returns. -/
theorem operator_call_eq_reference (ms : magic_switch α R) (st : Statics) (hst : Sound ms st)
    (vals : List Int) (args : List (Arg α)) (hlen : vals.length = ms.Enums.length) :
    (ms.operator_call st vals args).result = ms.reference vals args := by
  unfold operator_call reference
  rw [if_neg (by simpa using hlen)]
  dsimp only
  cases hs : st (args.map Arg.ty) with
  | some jump => rw [hst _ _ hs]
  | none => cases ms.table ms.Enums <;> rfl

theorem run_eq_reference (ms : magic_switch α R) :
    ∀ (calls : List (List Int × List (Arg α))) (st : Statics), Sound ms st →
      (∀ c ∈ calls, c.1.length = ms.Enums.length) →
      (ms.run st calls).map Outcome.result = calls.map fun c => ms.reference c.1 c.2 := by
  intro calls
  induction calls with
  | nil => intro st _ _; rfl
  | cons c calls ih =>
    intro st hst hlen
    obtain ⟨vals, args⟩ := c
    have h1 := operator_call_eq_reference ms st hst vals args
      (hlen (vals, args) (List.mem_cons_self _ _))
    have h2 := ih _ (sound_operator_call ms st hst vals args)
      (fun x hx => hlen x (List.mem_cons_of_mem _ hx))
    simp only [run, List.map_cons, h1, h2]

theorem zipWith_clamp (Enums : List EnumTy) (vs : List Nat) :
    List.zipWith (fun (E : EnumTy) (v : Nat) => if v < E.END then v else E.END - 1) Enums vs
      = clamped Enums vs := by
  unfold clamped clampSpec
  congr 1
  funext E v
  split <;> split <;> omega

theorem table_leaves (ms : magic_switch α R) (E : EnumTy) (Nums : List EnumTy) :
    (ms.tableAux Nums [] (List.range (size_t (E.END : Int)))).leaves
      = ((E :: Nums).map fun E => size_t (E.END : Int)).prod := by
  rw [tableAux_leaves]
  simp

theorem size_t_zero : size_t ((0 : Nat) : Int) = 0 := by decide

end magic_switch

/-! ## The claims -/

open magic_switch

/-- C1. Routing of in-range selectors. For at least one dimension, every
dimension of size at least one and two selector tuples inside their
dimensions: the table is built, the walk started by `operator()` over it
completes for each tuple and calls the function pointer that `f` generated
for exactly that tuple, in that order, with the trailing arguments, so
`operator()` returns what the thunk bound to that tuple returns; and two
different tuples select pointers bound to different combinations. -/
theorem C1_routing_in_range {α R : Type} (ms : magic_switch α R) (hK : ms.Enums ≠ [])
    (hwf : WellFormed ms.Enums) (vs vs' : List Nat) (hvs : InRange ms.Enums vs)
    (hvs' : InRange ms.Enums vs') (args : List (Arg α)) :
    ∃ (t : Jump) (w w' : Walk α), ms.table ms.Enums = some t ∧
      indexerTrace ms.Enums.length t
        (nums ms.Enums (vs.map (Nat.cast : Nat → Int)) ++ args) = some w ∧
      indexerTrace ms.Enums.length t
        (nums ms.Enums (vs'.map (Nat.cast : Nat → Int)) ++ args) = some w' ∧
      Jump.fn w.fn = ms.f vs ∧ Jump.fn w'.fn = ms.f vs' ∧
      (ms.operator_call Statics.init (vs.map (Nat.cast : Nat → Int)) args).result
        = some (ms.invoke vs args) ∧
      ms.invoke vs args = ms.Z (vs.map (Nat.cast : Nat → Int)) args ∧
      (vs ≠ vs' → Jump.fn w.fn ≠ Jump.fn w'.fn) := by
  have ht := typed_of_inRange ms.Enums vs hwf hvs
  have ht' := typed_of_inRange ms.Enums vs' hwf hvs'
  have hc := clamped_of_inRange ms.Enums vs hvs
  have hc' := clamped_of_inRange ms.Enums vs' hvs'
  obtain ⟨t, w, htab, hw, hfn, -⟩ := walk_table ms hK hwf vs ht args
  obtain ⟨t', w', htab', hw', hfn', -⟩ := walk_table ms hK hwf vs' ht' args
  rw [htab] at htab'
  cases htab'
  rw [hc] at hfn
  rw [hc'] at hfn'
  have hinv : ms.invoke vs args = ms.Z (vs.map (Nat.cast : Nat → Int)) args := by
    have := zipWith_cast ms.Enums vs hwf ht
    rw [hc] at this
    simp only [invoke, this]
  refine ⟨t, w, w', htab, hw, hw', by rw [hfn]; rfl, by rw [hfn']; rfl, ?_, hinv, ?_⟩
  · rw [operator_call_result ms hK hwf vs ht Statics.init (sound_init ms) args, hc, hinv]
  · intro hne h
    rw [hfn, hfn'] at h
    exact hne (Jump.fn.inj h)

theorem C1_routing_in_range_witness :
    switch32.Enums ≠ [] ∧ WellFormed switch32.Enums ∧
    InRange switch32.Enums [2, 1] ∧ InRange switch32.Enums [2, 0] ∧
    ∃ (t : Jump) (w w' : Walk Int), switch32.table switch32.Enums = some t ∧
      indexerTrace switch32.Enums.length t
        (nums switch32.Enums (([2, 1] : List Nat).map (Nat.cast : Nat → Int)) ++ [Arg.val 7])
          = some w ∧
      indexerTrace switch32.Enums.length t
        (nums switch32.Enums (([2, 0] : List Nat).map (Nat.cast : Nat → Int)) ++ [Arg.val 7])
          = some w' ∧
      Jump.fn w.fn = switch32.f [2, 1] ∧ Jump.fn w'.fn = switch32.f [2, 0] ∧
      (switch32.operator_call Statics.init (([2, 1] : List Nat).map (Nat.cast : Nat → Int))
          [Arg.val 7]).result = some (switch32.invoke [2, 1] [Arg.val 7]) ∧
      switch32.invoke [2, 1] [Arg.val 7]
        = switch32.Z (([2, 1] : List Nat).map (Nat.cast : Nat → Int)) [Arg.val 7] ∧
      (([2, 1] : List Nat) ≠ [2, 0] → Jump.fn w.fn ≠ Jump.fn w'.fn) :=
  have hK : switch32.Enums ≠ [] := by decide
  have hwf : WellFormed switch32.Enums := by unfold WellFormed; decide
  have h1 : InRange switch32.Enums [2, 1] :=
    List.Forall₂.cons (by decide) (List.Forall₂.cons (by decide) List.Forall₂.nil)
  have h2 : InRange switch32.Enums [2, 0] :=
    List.Forall₂.cons (by decide) (List.Forall₂.cons (by decide) List.Forall₂.nil)
  ⟨hK, hwf, h1, h2, C1_routing_in_range switch32 hK hwf [2, 1] [2, 0] h1 h2 [Arg.val 7]⟩

/-- C2. Pass-through and argument forwarding. For selectors that are
natural-number ordinals of their enumeration types and any trailing
arguments, `operator()` returns exactly what the family instance
`Z<c_0..c_{K-1}>` returns on the trailing arguments alone, where `c_i` is
`v_i` if `v_i < s_i` and `s_i - 1` otherwise; in particular for the family
whose instance at `c` returns `a + b + constant c` the call returns
`a + b + constant c` for all integers `a` and `b`. -/
theorem C2_pass_through {α R : Type} (ms : magic_switch α R) (hK : ms.Enums ≠ [])
    (hwf : WellFormed ms.Enums) (vs : List Nat) (hvs : Typed ms.Enums vs)
    (st : Statics) (hst : Sound ms st) (args : List (Arg α)) :
    (ms.operator_call st (vs.map (Nat.cast : Nat → Int)) args).result
        = some (ms.Z ((List.zipWith (fun E v => if v < E.END then v else E.END - 1)
            ms.Enums vs).map (Nat.cast : Nat → Int)) args) ∧
      ∀ (constant : List Int → Int) (a b : Int),
        ((magic_switch.mk (sumFamily constant) ms.Enums).operator_call Statics.init
            (vs.map (Nat.cast : Nat → Int)) [Arg.val a, Arg.val b]).result
          = some (a + b + constant ((List.zipWith
              (fun E v => if v < E.END then v else E.END - 1)
              ms.Enums vs).map (Nat.cast : Nat → Int))) := by
  have hcl : List.zipWith (fun (E : EnumTy) (v : Nat) => if v < E.END then v else E.END - 1)
      ms.Enums vs = clamped ms.Enums vs := by
    unfold clamped clampSpec
    congr 1
    funext E v
    split <;> split <;> omega
  rw [hcl]
  refine ⟨operator_call_result ms hK hwf vs hvs st hst args, ?_⟩
  intro constant a b
  have := operator_call_result (magic_switch.mk (sumFamily constant) ms.Enums) hK hwf vs hvs
    Statics.init (sound_init _) [Arg.val a, Arg.val b]
  rw [this]
  rfl

/-- C3. Clamping law. If the ordinal in position `i` is at or beyond the size
`s_i` of its dimension, then, whatever the other selectors and the trailing
arguments are, `operator()` returns a result, and it is the result of the
call in which position `i` holds `s_i - 1` and everything else is the same. -/
theorem C3_clamping_law {α R : Type} (ms : magic_switch α R) (hK : ms.Enums ≠ [])
    (hwf : WellFormed ms.Enums) (vs : List Nat) (hvs : Typed ms.Enums vs)
    (i : Nat) (E : EnumTy) (v : Nat) (hE : ms.Enums[i]? = some E) (hv : vs[i]? = some v)
    (hge : v ≥ E.END) (st : Statics) (hst : Sound ms st) (args : List (Arg α)) :
    ∃ r : R,
      (ms.operator_call st (vs.map (Nat.cast : Nat → Int)) args).result = some r ∧
      (ms.operator_call st ((vs.set i (E.END - 1)).map (Nat.cast : Nat → Int)) args).result
        = some r := by
  refine ⟨_, operator_call_result ms hK hwf vs hvs st hst args, ?_⟩
  rw [operator_call_result ms hK hwf _ (typed_set ms.Enums vs hwf hvs i E hE) st hst args,
    clamped_set ms.Enums vs hvs i E v hE hv hge]

theorem C2_pass_through_witness :
    switch23.Enums ≠ [] ∧ WellFormed switch23.Enums ∧ Typed switch23.Enums [1, 5] ∧
    Sound switch23 Statics.init ∧
    ((switch23.operator_call Statics.init (([1, 5] : List Nat).map (Nat.cast : Nat → Int))
        [Arg.val 10, Arg.val 20]).result
        = some (switch23.Z ((List.zipWith (fun E v => if v < E.END then v else E.END - 1)
            switch23.Enums [1, 5]).map (Nat.cast : Nat → Int)) [Arg.val 10, Arg.val 20]) ∧
      ∀ (constant : List Int → Int) (a b : Int),
        ((magic_switch.mk (sumFamily constant) switch23.Enums).operator_call Statics.init
            (([1, 5] : List Nat).map (Nat.cast : Nat → Int)) [Arg.val a, Arg.val b]).result
          = some (a + b + constant ((List.zipWith
              (fun E v => if v < E.END then v else E.END - 1)
              switch23.Enums [1, 5]).map (Nat.cast : Nat → Int)))) :=
  have hK : switch23.Enums ≠ [] := by decide
  have hwf : WellFormed switch23.Enums := by unfold WellFormed; decide
  have h1 : Typed switch23.Enums [1, 5] :=
    List.Forall₂.cons (by decide) (List.Forall₂.cons (by decide) List.Forall₂.nil)
  ⟨hK, hwf, h1, sound_init switch23,
    C2_pass_through switch23 hK hwf [1, 5] h1 Statics.init (sound_init switch23)
      [Arg.val 10, Arg.val 20]⟩

theorem C3_clamping_law_witness :
    switch23.Enums ≠ [] ∧ WellFormed switch23.Enums ∧ Typed switch23.Enums [1, 5] ∧
    switch23.Enums[1]? = some Enum3 ∧ ([1, 5] : List Nat)[1]? = some 5 ∧ 5 ≥ Enum3.END ∧
    Sound switch23 Statics.init ∧
    ∃ r : List Int,
      (switch23.operator_call Statics.init (([1, 5] : List Nat).map (Nat.cast : Nat → Int))
        [Arg.val 10]).result = some r ∧
      (switch23.operator_call Statics.init
        ((([1, 5] : List Nat).set 1 (Enum3.END - 1)).map (Nat.cast : Nat → Int))
        [Arg.val 10]).result = some r :=
  have hK : switch23.Enums ≠ [] := by decide
  have hwf : WellFormed switch23.Enums := by unfold WellFormed; decide
  have h1 : Typed switch23.Enums [1, 5] :=
    List.Forall₂.cons (by decide) (List.Forall₂.cons (by decide) List.Forall₂.nil)
  ⟨hK, hwf, h1, rfl, rfl, by decide, sound_init switch23,
    C3_clamping_law switch23 hK hwf [1, 5] h1 1 Enum3 5 rfl rfl (by decide) Statics.init
      (sound_init switch23) [Arg.val 10]⟩

/-- C4, evaluated where it fails. In a dimension of size 3 whose enumeration
has a signed 32 bit underlying type, the selector with ordinal `-1` is a
value of the type; the comparison `val > end` is false for it, so it is not
clamped, and the conversion to `size_t` yields `2^64 - 1`, which is not below
the size 3: the lookup `jump[idx]` is outside the array and the call of
`operator()` with selectors `(1, -1)` has no defined result. -/
theorem C4_negative_ordinal_out_of_bounds :
    Enum3.valid ∧ 1 ≤ Enum3.END ∧ Enum3.holds (-1) ∧
    index Enum3 (-1) = 18446744073709551615 ∧ ¬ index Enum3 (-1) < Enum3.END ∧
    (switch23.operator_call Statics.init [1, -1] [Arg.val 10]).result = none := by
  refine ⟨by decide, by decide, by decide, by decide, by decide, by decide⟩

/-- C5. Table content. For at least one dimension, every dimension of size
at least one and every index path `(j_0, .., j_{K-1})` with `j_i < s_i`, the
table returned by `table` holds at that path the function pointer that `f`
produces for the value list `(j_0, .., j_{K-1})`, whose call instantiates the
family at exactly these ordinals in dimension order. -/
theorem C5_table_content {α R : Type} (ms : magic_switch α R) (hK : ms.Enums ≠ [])
    (hwf : WellFormed ms.Enums) (js : List Nat) (hjs : InRange ms.Enums js) :
    ∃ t : Jump, ms.table ms.Enums = some t ∧ t.at? js = some (ms.f js) ∧
      ∀ args : List (Arg α), ms.invoke js args = ms.Z (js.map (Nat.cast : Nat → Int)) args := by
  have hsz := forall₂_of_inRange ms.Enums js hwf hjs
  have hcast := zipWith_cast ms.Enums js hwf (typed_of_inRange ms.Enums js hwf hjs)
  rw [clamped_of_inRange ms.Enums js hjs] at hcast
  have hinv : ∀ args : List (Arg α),
      ms.invoke js args = ms.Z (js.map (Nat.cast : Nat → Int)) args := by
    intro args
    simp only [invoke, hcast]
  revert hsz
  cases hE : ms.Enums with
  | nil => exact absurd hE hK
  | cons E Nums =>
    intro hsz
    cases hsz with
    | @cons _ j _ js' hj hrest =>
      refine ⟨_, rfl, ?_, hinv⟩
      simpa using tableAux_at ms Nums [] (size_t (E.END : Int)) j js' hj hrest

theorem C5_table_content_witness :
    switch23.Enums ≠ [] ∧ WellFormed switch23.Enums ∧ InRange switch23.Enums [1, 2] ∧
    ∃ t : Jump, switch23.table switch23.Enums = some t ∧
      t.at? [1, 2] = some (switch23.f [1, 2]) ∧
      ∀ args : List (Arg Int), switch23.invoke [1, 2] args
        = switch23.Z (([1, 2] : List Nat).map (Nat.cast : Nat → Int)) args :=
  have hK : switch23.Enums ≠ [] := by decide
  have hwf : WellFormed switch23.Enums := by unfold WellFormed; decide
  have h1 : InRange switch23.Enums [1, 2] :=
    List.Forall₂.cons (by decide) (List.Forall₂.cons (by decide) List.Forall₂.nil)
  ⟨hK, hwf, h1, C5_table_content switch23 hK hwf [1, 2] h1⟩

/-- C6. Table shape. For at least one dimension and every dimension of size
at least one, the table returned by `table` has the nested array type that
`arr_type_helper` computes for the same enumeration list; that type has depth
`K` and the array at level `i` has width `s_i`; the table holds exactly
`s_0 * .. * s_{K-1}` function pointers. -/
theorem C6_table_shape {α R : Type} (ms : magic_switch α R) (hK : ms.Enums ≠ [])
    (hwf : WellFormed ms.Enums) :
    ∃ t : Jump, ms.table ms.Enums = some t ∧
      t.hasType (arr_type_helper ms.Enums) = true ∧
      (arr_type_helper ms.Enums).depth = ms.Enums.length ∧
      (arr_type_helper ms.Enums).widths = ms.Enums.map EnumTy.END ∧
      t.leaves = (ms.Enums.map EnumTy.END).prod := by
  have hd := depth_arr_type_helper ms.Enums
  have hw := widths_arr_type_helper ms.Enums hwf
  have hm := map_size_t_END ms.Enums hwf
  revert hd hw hm
  cases hE : ms.Enums with
  | nil => exact absurd hE hK
  | cons E Nums =>
    intro hd hw hm
    refine ⟨_, rfl, ?_, hd, hw, ?_⟩
    · simpa [arr_type_helper] using
        tableAux_hasType ms Nums [] (List.range (size_t (E.END : Int)))
    · rw [tableAux_leaves, ← hm]
      simp

theorem C6_table_shape_witness :
    switch23.Enums ≠ [] ∧ WellFormed switch23.Enums ∧
    ∃ t : Jump, switch23.table switch23.Enums = some t ∧
      t.hasType (arr_type_helper switch23.Enums) = true ∧
      (arr_type_helper switch23.Enums).depth = switch23.Enums.length ∧
      (arr_type_helper switch23.Enums).widths = switch23.Enums.map EnumTy.END ∧
      t.leaves = (switch23.Enums.map EnumTy.END).prod :=
  have hK : switch23.Enums ≠ [] := by decide
  have hwf : WellFormed switch23.Enums := by unfold WellFormed; decide
  ⟨hK, hwf, C6_table_shape switch23 hK hwf⟩

/-- C7. Build-once law, sequential. For one trailing-argument signature
whose static is uninitialised and any sequence of at least one call with that
signature: the first call evaluates the initialiser and moves the static to
the table returned by `table`, every later call evaluates nothing and leaves
the statics exactly as the first call left them, so that over the whole
sequence the table is constructed exactly once. -/
theorem C7_build_once {α R : Type} (ms : magic_switch α R) (hK : ms.Enums ≠ [])
    (st : Statics) (sig : List ArgTy) (hinit : st sig = none)
    (c : List Int × List (Arg α)) (calls : List (List Int × List (Arg α)))
    (hsig : ∀ x ∈ c :: calls, x.2.map Arg.ty = sig)
    (hlen : ∀ x ∈ c :: calls, x.1.length = ms.Enums.length) :
    ∃ (t : Jump) (o : Outcome R) (os : List (Outcome R)),
      ms.table ms.Enums = some t ∧ ms.run st (c :: calls) = o :: os ∧
      o.built = true ∧ o.statics = st.set sig t ∧ o.statics sig = some t ∧
      (∀ x ∈ os, x.built = false ∧ x.statics = o.statics) ∧
      ((ms.run st (c :: calls)).filter fun x => x.built).length = 1 := by
  obtain ⟨vals, args⟩ := c
  have hc : args.map Arg.ty = sig := hsig (vals, args) (List.mem_cons_self _ _)
  have hl : vals.length = ms.Enums.length := hlen (vals, args) (List.mem_cons_self _ _)
  obtain ⟨t, ht⟩ : ∃ t, ms.table ms.Enums = some t := by
    cases hE : ms.Enums with
    | nil => exact absurd hE hK
    | cons E Nums => exact ⟨_, rfl⟩
  have ho : ms.operator_call st vals args
      = ⟨st.set sig t, true,
          ms.indexer ms.Enums.length t (nums ms.Enums vals ++ args)⟩ := by
    unfold operator_call
    rw [if_neg (by simpa using hl)]
    simp only [hc, hinit, ht]
  have hset : (st.set sig t) sig = some t := by simp [Statics.set]
  have hrest := run_built ms sig t calls (st.set sig t) hset
    (fun x hx => hsig x (List.mem_cons_of_mem _ hx))
  have hrun : ms.run st ((vals, args) :: calls)
      = ms.operator_call st vals args :: ms.run (st.set sig t) calls := by
    simp only [run, ho]
  refine ⟨t, ms.operator_call st vals args, ms.run (st.set sig t) calls, ht, hrun, ?_, ?_, ?_,
    ?_, ?_⟩
  · rw [ho]
  · rw [ho]
  · rw [ho]; exact hset
  · intro x hx
    rw [ho]
    exact hrest x hx
  · rw [hrun, List.filter_cons_of_pos (by rw [ho])]
    have : (ms.run (st.set sig t) calls).filter (fun x => x.built) = [] := by
      rw [List.filter_eq_nil_iff]
      intro x hx
      simp [(hrest x hx).1]
    rw [this]
    rfl

theorem C7_build_once_witness :
    switch23.Enums ≠ [] ∧ Statics.init [ArgTy.valT] = none ∧
    (∀ x ∈ [(([1, 5] : List Int), [(Arg.val 10 : Arg Int)]), ([0, 0], [Arg.val 3]),
        ([1, 2], [Arg.val 4])], x.2.map Arg.ty = [ArgTy.valT]) ∧
    (∀ x ∈ [(([1, 5] : List Int), [(Arg.val 10 : Arg Int)]), ([0, 0], [Arg.val 3]),
        ([1, 2], [Arg.val 4])], x.1.length = switch23.Enums.length) ∧
    ∃ (t : Jump) (o : Outcome (List Int)) (os : List (Outcome (List Int))),
      switch23.table switch23.Enums = some t ∧
      switch23.run Statics.init [([1, 5], [Arg.val 10]), ([0, 0], [Arg.val 3]),
        ([1, 2], [Arg.val 4])] = o :: os ∧
      o.built = true ∧ o.statics = Statics.init.set [ArgTy.valT] t ∧
      o.statics [ArgTy.valT] = some t ∧
      (∀ x ∈ os, x.built = false ∧ x.statics = o.statics) ∧
      ((switch23.run Statics.init [([1, 5], [Arg.val 10]), ([0, 0], [Arg.val 3]),
        ([1, 2], [Arg.val 4])]).filter fun x => x.built).length = 1 :=
  have hK : switch23.Enums ≠ [] := by decide
  have hsig : ∀ x ∈ [(([1, 5] : List Int), [(Arg.val 10 : Arg Int)]), ([0, 0], [Arg.val 3]),
      ([1, 2], [Arg.val 4])], x.2.map Arg.ty = [ArgTy.valT] := by decide
  have hlen : ∀ x ∈ [(([1, 5] : List Int), [(Arg.val 10 : Arg Int)]), ([0, 0], [Arg.val 3]),
      ([1, 2], [Arg.val 4])], x.1.length = switch23.Enums.length := by decide
  ⟨hK, rfl, hsig, hlen,
    C7_build_once switch23 hK Statics.init [ArgTy.valT] rfl ([1, 5], [Arg.val 10])
      [([0, 0], [Arg.val 3]), ([1, 2], [Arg.val 4])] hsig hlen⟩

/-- C9. The clamp test of the code agrees with the rule of the
specification. For a dimension of size `s ≥ 1` and a natural-number ordinal
`v` of its enumeration type, the index computed by `indexer` is `s - 1` if
`v ≥ s` and `v` otherwise, that is the smaller of `v` and `s - 1`; an ordinal
below `s` is left unchanged, the boundary ordinal `s - 1` included. -/
theorem C9_clamp_refines_spec (E : EnumTy) (hv : E.valid) (h1 : 1 ≤ E.END) (v : Nat)
    (h : E.holds (v : Int)) :
    index E v = clampSpec E.END v ∧ index E v = min v (E.END - 1) ∧
      (v < E.END → index E v = v) ∧ (v = E.END - 1 → index E v = v) := by
  have hi := index_of_nat E hv h1 v h
  have hc := clampSpec_eq_min E.END v h1
  refine ⟨by rw [hi, hc], hi, ?_, ?_⟩
  · intro hlt; omega
  · intro heq; omega

theorem C9_clamp_refines_spec_witness :
    Enum3.valid ∧ 1 ≤ Enum3.END ∧ Enum3.holds ((5 : Nat) : Int) ∧
    (index Enum3 ((5 : Nat) : Int) = clampSpec Enum3.END 5 ∧
      index Enum3 ((5 : Nat) : Int) = min 5 (Enum3.END - 1) ∧
      (5 < Enum3.END → index Enum3 ((5 : Nat) : Int) = 5) ∧
      (5 = Enum3.END - 1 → index Enum3 ((5 : Nat) : Int) = 5)) :=
  ⟨by decide, by decide, by decide,
    C9_clamp_refines_spec Enum3 (by decide) (by decide) 5 (by decide)⟩

/-- C10. The walk is well-formed and ends after exactly `K` index
operations. For at least one dimension, every dimension of size at least one,
any nested array of the type computed for the enumeration list and selectors
that are natural-number ordinals of their types: `indexer<K>` completes; it
executes `K` bodies with `todo = K, K-1, .., 1`, the `i`-th body using the
`i`-th selector; the first body is handed the table and each later body the
cell found by the body before it; every body performs one array index inside
its array; the cell found is a nested array whenever `todo ≠ 1` and the
function pointer that is called when `todo = 1`; and the arguments of that
call are exactly the trailing arguments. -/
theorem C10_walk_well_formed {α R : Type} (ms : magic_switch α R) (hK : ms.Enums ≠ [])
    (hwf : WellFormed ms.Enums) (jump : Jump)
    (hT : jump.hasType (arr_type_helper ms.Enums) = true) (vs : List Nat)
    (hvs : Typed ms.Enums vs) (args : List (Arg α)) :
    ∃ w : Walk α,
      indexerTrace ms.Enums.length jump
        (nums ms.Enums (vs.map (Nat.cast : Nat → Int)) ++ args) = some w ∧
      w.visits.length = ms.Enums.length ∧
      w.visits.map Visit.todo = countdown ms.Enums.length ∧
      w.visits.map Visit.idx = List.zipWith index ms.Enums (vs.map (Nat.cast : Nat → Int)) ∧
      w.visits.head?.map Visit.jump = some jump ∧
      List.Chain' (fun a b => b.jump = a.cell) w.visits ∧
      (∀ x ∈ w.visits, ∃ cells, x.jump = .array cells ∧ cells[x.idx]? = some x.cell) ∧
      (∀ x ∈ w.visits, x.todo ≠ 1 → ∃ cells, x.cell = .array cells) ∧
      (∀ x ∈ w.visits, x.todo = 1 → x.cell = .fn w.fn) ∧
      w.args = args ∧
      ms.indexer ms.Enums.length jump
        (nums ms.Enums (vs.map (Nat.cast : Nat → Int)) ++ args) = some (ms.invoke w.fn args) := by
  have hidx := forall₂_index ms.Enums vs hwf hvs
  have hlink := indexer_eq_trace ms ms.Enums.length jump
    (nums ms.Enums (vs.map (Nat.cast : Nat → Int)) ++ args)
  revert hidx hT hlink
  cases hE : ms.Enums with
  | nil => exact absurd hE hK
  | cons E Nums =>
    intro hT hidx hlink
    cases hm : vs.map (Nat.cast : Nat → Int) with
    | nil => rw [hm] at hidx; cases hidx
    | cons v vals =>
      rw [hm] at hidx hlink
      cases hidx with
      | cons hv hvals =>
        obtain ⟨w, hw, hargs, -, htodo, hidxs, hhead, hchain, hjumps, hmid, hlast⟩ :=
          indexerTrace_spec Nums E jump v vals args hT hv hvals
        have hw2 : indexerTrace (E :: Nums).length jump (nums (E :: Nums) (v :: vals) ++ args)
            = some w := by
          simpa [nums] using hw
        have hlen : w.visits.length = (E :: Nums).length := by
          have := congrArg List.length hidxs
          simp only [List.length_map, List.length_cons] at this
          have h2 := List.Forall₂.length_eq hvals
          simp only [List.length_zipWith, ← h2, Nat.min_self] at this
          simpa using this
        refine ⟨w, hw2, hlen, htodo, ?_, hhead, hchain, hjumps, hmid, hlast, hargs, ?_⟩
        · simpa using hidxs
        · rw [hlink, hw2, Option.map_some', hargs]

theorem C10_walk_well_formed_witness :
    switch23.Enums ≠ [] ∧ WellFormed switch23.Enums ∧
    someJump23.hasType (arr_type_helper switch23.Enums) = true ∧ Typed switch23.Enums [1, 5] ∧
    ∃ w : Walk Int,
      indexerTrace switch23.Enums.length someJump23
        (nums switch23.Enums (([1, 5] : List Nat).map (Nat.cast : Nat → Int)) ++ [Arg.val 10])
          = some w ∧
      w.visits.length = switch23.Enums.length ∧
      w.visits.map Visit.todo = countdown switch23.Enums.length ∧
      w.visits.map Visit.idx
        = List.zipWith index switch23.Enums (([1, 5] : List Nat).map (Nat.cast : Nat → Int)) ∧
      w.visits.head?.map Visit.jump = some someJump23 ∧
      List.Chain' (fun a b => b.jump = a.cell) w.visits ∧
      (∀ x ∈ w.visits, ∃ cells, x.jump = .array cells ∧ cells[x.idx]? = some x.cell) ∧
      (∀ x ∈ w.visits, x.todo ≠ 1 → ∃ cells, x.cell = .array cells) ∧
      (∀ x ∈ w.visits, x.todo = 1 → x.cell = .fn w.fn) ∧
      w.args = [Arg.val 10] ∧
      switch23.indexer switch23.Enums.length someJump23
        (nums switch23.Enums (([1, 5] : List Nat).map (Nat.cast : Nat → Int)) ++ [Arg.val 10])
          = some (switch23.invoke w.fn [Arg.val 10]) :=
  have hK : switch23.Enums ≠ [] := by decide
  have hwf : WellFormed switch23.Enums := by unfold WellFormed; decide
  have hT : someJump23.hasType (arr_type_helper switch23.Enums) = true := by decide
  have h1 : Typed switch23.Enums [1, 5] :=
    List.Forall₂.cons (by decide) (List.Forall₂.cons (by decide) List.Forall₂.nil)
  ⟨hK, hwf, hT, h1, C10_walk_well_formed switch23 hK hwf someJump23 hT [1, 5] h1 [Arg.val 10]⟩

/-- C11. Building the table invokes no behaviour. With the invocations of
the behaviour family recorded as an explicit effect, for every enumeration
list and every record, evaluating `table` returns the table and leaves the
record as it was, so an empty record stays empty: `f` only produces the
pointer, and an invocation is recorded only when the lambda behind a pointer
is called. -/
theorem C11_build_invokes_nothing {α R : Type} (ms : magic_switch α R) (Enums : List EnumTy)
    (log : Log α) :
    (ms.tableLogged Enums log).2 = log ∧
      (ms.tableLogged Enums ([] : Log α)).2 = [] ∧
      (ms.tableLogged Enums log).1 = ms.table Enums ∧
      (∀ (I : List Nat) (l : Log α), ms.fLogged I l = (ms.f I, l)) ∧
      ∀ (I : List Nat) (args : List (Arg α)) (l : Log α),
        ms.invokeLogged I args l
          = (ms.invoke I args,
              l ++ [(List.zipWith (fun E i => E.cast ((i : Nat) : Int)) ms.Enums I, args)]) := by
  refine ⟨?_, ?_, ?_, fun I l => rfl, fun I args l => rfl⟩
  · rw [tableLogged_eq]
  · rw [tableLogged_eq]
  · rw [tableLogged_eq]

/-- C12. A malformed domain is not guarded. If some dimension has size 0,
`table` still returns a table; it holds no function pointer; below every
in-range index path through the dimensions before the empty one it holds an
empty array; the walk of `indexer` over it finds no in-bounds cell whatever
the pack is, and `operator()` has no result for any selectors and arguments. -/
theorem C12_zero_size_dimension {α R : Type} (ms : magic_switch α R)
    (pre post : List EnumTy) (E0 : EnumTy) (h0 : E0.END = 0)
    (hE : ms.Enums = pre ++ E0 :: post) :
    ∃ t : Jump, ms.table ms.Enums = some t ∧ t.leaves = 0 ∧
      (∀ js : List Nat, List.Forall₂ (fun E j => j < size_t (E.END : Int)) pre js →
        t.at? js = some (.array [])) ∧
      (∀ pack : List (Arg α), ms.indexer ms.Enums.length t pack = none) ∧
      (∀ (st : Statics), Sound ms st → ∀ (vals : List Int) (args : List (Arg α)),
        (ms.operator_call st vals args).result = none) := by
  have hs0 : size_t (E0.END : Int) = 0 := by rw [h0]; exact size_t_zero
  have hz : ∃ E ∈ ms.Enums, size_t (E.END : Int) = 0 :=
    ⟨E0, by rw [hE]; simp, hs0⟩
  obtain ⟨t, ht, hT, hleaves, hat⟩ : ∃ t : Jump, ms.table ms.Enums = some t ∧
      t.hasType (arr_type_helper ms.Enums) = true ∧ t.leaves = 0 ∧
      (∀ js : List Nat, List.Forall₂ (fun E j => j < size_t (E.END : Int)) pre js →
        t.at? js = some (.array [])) := by
    rw [hE]
    cases pre with
    | nil =>
      refine ⟨ms.tableAux post [] (List.range (size_t (E0.END : Int))), rfl, ?_, ?_, ?_⟩
      · simpa [arr_type_helper] using
          tableAux_hasType ms post [] (List.range (size_t (E0.END : Int)))
      · rw [table_leaves]
        exact List.prod_eq_zero (by simp [hs0])
      · intro js hjs
        cases hjs
        rw [hs0]
        simp [Jump.at?, tableAux_nil_seq]
    | cons P pre =>
      refine ⟨ms.tableAux (pre ++ E0 :: post) [] (List.range (size_t (P.END : Int))),
        rfl, ?_, ?_, ?_⟩
      · simpa [arr_type_helper] using
          tableAux_hasType ms (pre ++ E0 :: post) [] (List.range (size_t (P.END : Int)))
      · rw [table_leaves]
        exact List.prod_eq_zero (by simp [hs0])
      · intro js hjs
        cases hjs with
        | @cons _ j _ js' hj hrest =>
          rw [tableAux_at_initial ms E0 post pre [] _ j js' hj hrest, hs0]
          simp [tableAux_nil_seq]
  have hwalk : ∀ pack : List (Arg α), ms.indexer ms.Enums.length t pack = none :=
    indexer_none_of_zero ms ms.Enums hz t hT
  refine ⟨t, ht, hleaves, hat, hwalk, ?_⟩
  intro st hst vals args
  unfold operator_call
  split
  · rfl
  · dsimp only
    cases hs : st (args.map Arg.ty) with
    | some jump =>
      have := hst _ _ hs
      rw [ht] at this
      cases this
      exact hwalk _
    | none =>
      simp only [ht]
      exact hwalk _

theorem C12_zero_size_dimension_witness :
    Enum0.END = 0 ∧ switch20.Enums = [Enum2] ++ Enum0 :: [] ∧
    ∃ t : Jump, switch20.table switch20.Enums = some t ∧ t.leaves = 0 ∧
      (∀ js : List Nat, List.Forall₂ (fun E j => j < size_t (E.END : Int)) [Enum2] js →
        t.at? js = some (.array [])) ∧
      (∀ pack : List (Arg Int), switch20.indexer switch20.Enums.length t pack = none) ∧
      (∀ (st : Statics), Sound switch20 st → ∀ (vals : List Int) (args : List (Arg Int)),
        (switch20.operator_call st vals args).result = none) :=
  ⟨rfl, rfl, C12_zero_size_dimension switch20 [Enum2] [] Enum0 rfl rfl⟩

/-- C13. Exactly one behaviour runs per call. For at least one dimension,
every dimension of size at least one, selectors that are natural-number
ordinals of their enumeration types and any trailing arguments, one call of
`operator()`, from sound statics whether initialised or not, adds exactly one
entry to the record of invocations: the call, on the trailing arguments, of
the instance bound to the clamped selector tuple; nothing else is recorded,
and the outcome of the call is the one of `operator()`. -/
theorem C13_exactly_one_invocation {α R : Type} (ms : magic_switch α R) (hK : ms.Enums ≠ [])
    (hwf : WellFormed ms.Enums) (vs : List Nat) (hvs : Typed ms.Enums vs)
    (st : Statics) (hst : Sound ms st) (args : List (Arg α)) (log : Log α) :
    (ms.operator_callLogged st (vs.map (Nat.cast : Nat → Int)) args log).2
        = log ++ [((List.zipWith (fun E v => if v < E.END then v else E.END - 1)
            ms.Enums vs).map (Nat.cast : Nat → Int), args)] ∧
      (ms.operator_callLogged st (vs.map (Nat.cast : Nat → Int)) args []).2.length = 1 ∧
      (ms.operator_callLogged st (vs.map (Nat.cast : Nat → Int)) args log).1
        = ms.operator_call st (vs.map (Nat.cast : Nat → Int)) args := by
  rw [zipWith_clamp]
  refine ⟨operator_callLogged_log ms hK hwf vs hvs st hst args log, ?_,
    operator_callLogged_fst ms st _ args log⟩
  rw [operator_callLogged_log ms hK hwf vs hvs st hst args []]
  rfl

theorem C13_exactly_one_invocation_witness :
    switch23.Enums ≠ [] ∧ WellFormed switch23.Enums ∧ Typed switch23.Enums [1, 5] ∧
    Sound switch23 Statics.init ∧
    ((switch23.operator_callLogged Statics.init
        (([1, 5] : List Nat).map (Nat.cast : Nat → Int)) [Arg.val 10] []).2
        = [] ++ [((List.zipWith (fun E v => if v < E.END then v else E.END - 1)
            switch23.Enums [1, 5]).map (Nat.cast : Nat → Int), [Arg.val 10])] ∧
      (switch23.operator_callLogged Statics.init
        (([1, 5] : List Nat).map (Nat.cast : Nat → Int)) [Arg.val 10] []).2.length = 1 ∧
      (switch23.operator_callLogged Statics.init
        (([1, 5] : List Nat).map (Nat.cast : Nat → Int)) [Arg.val 10] []).1
        = switch23.operator_call Statics.init
            (([1, 5] : List Nat).map (Nat.cast : Nat → Int)) [Arg.val 10]) :=
  have hK : switch23.Enums ≠ [] := by decide
  have hwf : WellFormed switch23.Enums := by unfold WellFormed; decide
  have h1 : Typed switch23.Enums [1, 5] :=
    List.Forall₂.cons (by decide) (List.Forall₂.cons (by decide) List.Forall₂.nil)
  ⟨hK, hwf, h1, sound_init switch23,
    C13_exactly_one_invocation switch23 hK hwf [1, 5] h1 Statics.init (sound_init switch23)
      [Arg.val 10] []⟩

/-- C14. The cache is transparent. For every finite sequence of `operator()`
calls, each with `sizeof...(Enums)` selectors, started from the uninitialised
statics, the result of every call is the result of the stateless reference
that rebuilds the table and walks it for that call; so the result of a call
is the same whatever calls came before it, whether or not it was the call
that built the table. This holds for calls of one trailing-argument signature
and for any mix of signatures alike. -/
theorem C14_cache_transparent {α R : Type} (ms : magic_switch α R)
    (calls : List (List Int × List (Arg α)))
    (hlen : ∀ c ∈ calls, c.1.length = ms.Enums.length) :
    (ms.run Statics.init calls).map Outcome.result
        = calls.map (fun c => ms.reference c.1 c.2) ∧
      ∀ (before : List (List Int × List (Arg α))) (c : List Int × List (Arg α)),
        (∀ x ∈ before ++ [c], x.1.length = ms.Enums.length) →
        ((ms.run Statics.init (before ++ [c])).getLast?).map Outcome.result
          = some (ms.reference c.1 c.2) := by
  refine ⟨run_eq_reference ms calls Statics.init (sound_init ms) hlen, ?_⟩
  intro before c hbc
  have := run_eq_reference ms (before ++ [c]) Statics.init (sound_init ms) hbc
  rw [← List.getLast?_map, this, List.map_append, List.map_singleton, List.getLast?_concat]

theorem C14_cache_transparent_witness :
    (∀ c ∈ [(([1, 5] : List Int), [(Arg.val 10 : Arg Int)]), ([0, 0], [Arg.val 3]),
        ([1, 2], [Arg.val 4])], c.1.length = switch23.Enums.length) ∧
    ((switch23.run Statics.init [([1, 5], [Arg.val 10]), ([0, 0], [Arg.val 3]),
        ([1, 2], [Arg.val 4])]).map Outcome.result
        = [(([1, 5] : List Int), [(Arg.val 10 : Arg Int)]), ([0, 0], [Arg.val 3]),
            ([1, 2], [Arg.val 4])].map (fun c => switch23.reference c.1 c.2) ∧
      ∀ (before : List (List Int × List (Arg Int))) (c : List Int × List (Arg Int)),
        (∀ x ∈ before ++ [c], x.1.length = switch23.Enums.length) →
        ((switch23.run Statics.init (before ++ [c])).getLast?).map Outcome.result
          = some (switch23.reference c.1 c.2)) :=
  have hlen : ∀ c ∈ [(([1, 5] : List Int), [(Arg.val 10 : Arg Int)]), ([0, 0], [Arg.val 3]),
      ([1, 2], [Arg.val 4])], c.1.length = switch23.Enums.length := by decide
  ⟨hlen, C14_cache_transparent switch23 _ hlen⟩

end MagicSwitch
